import Mathlib

/-!
Shallow embedding of the plinko chart core (pitcher-plinko repository):
`PlinkoChartGenerator` from `src/plinko/visualization/plinko_chart.py` together
with the constant tables from `src/plinko/utils/constants.py` and the `count`
column construction from `src/plinko/data/pitcher_data.py`.

Dataframe rows become a list of `PitchEvent` records; pandas `sort_values` on
several columns is a stable lexicographic sort, modelled by `List.insertionSort`
on the lexicographic key; pandas `groupby` over the sorted frame yields the runs
of equal keys in ascending key order, modelled by `groupRuns`; Python dicts are
modelled as association lists in insertion order; float arithmetic on the small
dyadic constants involved is exact and is modelled over `ℚ`.
-/

namespace Plinko

/-- One row of the processed pitch dataframe (`process_pitch_data` output):
`game_date` and `at_bat_number` identify the at-bat, `pitch_number` orders the
pitches inside it, `balls`/`strikes` give the count, `pitch_type` may be null.
`game_date` is modelled as an opaque ordered identifier. -/
structure PitchEvent where
  game_date : Nat
  at_bat_number : Nat
  pitch_number : Nat
  balls : Nat
  strikes : Nat
  pitch_type : Option String
deriving DecidableEq

/-- `PITCH_COLORS` from `constants.py`. -/
def PITCH_COLORS : List (String × String) :=
  [("FF", "#FF4B4B"), ("SI", "#FF8C42"), ("FC", "#B85C38"), ("SL", "#FFC914"),
   ("CU", "#00C9FF"), ("CH", "#21C354"), ("FS", "#00D4AA"), ("KC", "#4A9EFF"),
   ("ST", "#FF6EC7"), ("SV", "#FF7043")]

/-- `PITCH_NAMES` from `constants.py`. -/
def PITCH_NAMES : List (String × String) :=
  [("FF", "4-Seam FB"), ("SI", "Sinker"), ("FC", "Cutter"), ("SL", "Slider"),
   ("CU", "Curveball"), ("CH", "Changeup"), ("FS", "Splitter"), ("KC", "Knuckle Curve"),
   ("ST", "Sweeper"), ("SV", "Slurve")]

/-- `COUNT_POSITIONS` from `constants.py` (floats written as the same rationals). -/
def COUNT_POSITIONS : List (String × (ℚ × ℚ)) :=
  [("0-0", (3/2, 4)), ("1-0", (11/4, 13/4)), ("0-1", (1/4, 13/4)),
   ("2-0", (7/2, 5/2)), ("1-1", (3/2, 5/2)), ("0-2", (-1/2, 5/2)),
   ("3-0", (7/2, 3/2)), ("2-1", (3/2, 3/2)), ("1-2", (-1/2, 3/2)),
   ("3-1", (11/4, 1/2)), ("2-2", (1/4, 1/2)), ("3-2", (3/2, 0))]

/-- `COUNT_TRANSITIONS` from `constants.py`: the 17 legal count transitions. -/
def COUNT_TRANSITIONS : List (String × String) :=
  [("0-0", "1-0"), ("0-0", "0-1"),
   ("1-0", "2-0"), ("1-0", "1-1"),
   ("0-1", "1-1"), ("0-1", "0-2"),
   ("2-0", "3-0"), ("2-0", "2-1"),
   ("1-1", "2-1"), ("1-1", "1-2"),
   ("0-2", "1-2"),
   ("3-0", "3-1"),
   ("2-1", "3-1"), ("2-1", "2-2"),
   ("1-2", "2-2"),
   ("3-1", "3-2"), ("2-2", "3-2")]

/-- `CHART_CONFIG['pie_radius']` (0.28). -/
def pie_radius : ℚ := 28/100

/-- `CHART_CONFIG['inner_circle_ratio']` (0.5); renamed to avoid a reserved suffix. -/
def inner_circle_frac : ℚ := 1/2

/-- `CHART_CONFIG['min_line_width']` (1.5). -/
def min_line_width : ℚ := 3/2

/-- `CHART_CONFIG['max_line_width']` (18). -/
def max_line_width : ℚ := 18

/-- The `count` column added by `process_pitch_data`:
`balls.astype(str) + '-' + strikes.astype(str)`. -/
def countOf (e : PitchEvent) : String :=
  toString e.balls ++ "-" ++ toString e.strikes

/-- Group key of `groupby(['game_date', 'at_bat_number'])`. -/
def gkey (e : PitchEvent) : Nat × Nat := (e.game_date, e.at_bat_number)

/-- Lexicographic order of `sort_values(by=['game_date', 'at_bat_number', 'pitch_number'])`. -/
def sortKeyLe (a b : PitchEvent) : Prop :=
  a.game_date < b.game_date ∨ (a.game_date = b.game_date ∧
    (a.at_bat_number < b.at_bat_number ∨ (a.at_bat_number = b.at_bat_number ∧
      a.pitch_number ≤ b.pitch_number)))

instance : DecidableRel sortKeyLe := fun a b => by unfold sortKeyLe; exact inferInstance

instance : IsTotal PitchEvent sortKeyLe :=
  ⟨fun a b => by unfold sortKeyLe; omega⟩

instance : IsTrans PitchEvent sortKeyLe :=
  ⟨fun a b c hab hbc => by unfold sortKeyLe at *; omega⟩

/-- pandas `sort_values` on several columns is a stable lexicographic sort
(`numpy.lexsort`); stable sorting is modelled by insertion sort. -/
def sortEvents (l : List PitchEvent) : List PitchEvent :=
  List.insertionSort sortKeyLe l

/-- pandas `groupby` over the sorted frame: maximal consecutive runs of rows
sharing the group key, in order of appearance (ascending key order, since the
frame was sorted first). -/
def groupRuns : List PitchEvent → List (List PitchEvent)
  | [] => []
  | a :: l =>
    match groupRuns l with
    | [] => [[a]]
    | [] :: gs => [a] :: [] :: gs
    | (b :: g) :: gs =>
      if gkey a = gkey b then (a :: b :: g) :: gs else [a] :: (b :: g) :: gs

/-- Python `d.get(k, 0)` on the flow dict. -/
def dictGet (d : List ((String × String) × Nat)) (k : String × String) : Nat :=
  ((d.find? (fun p => p.1.1 == k.1 && p.1.2 == k.2)).map (·.2)).getD 0

/-- `flow_counts[t] = flow_counts.get(t, 0) + 1`: Python dicts keep insertion
order, updating an existing key in place and appending a new key at the end. -/
def dictIncr (d : List ((String × String) × Nat)) (k : String × String) :
    List ((String × String) × Nat) :=
  if d.any (fun p => p.1 == k) then
    d.map (fun p => if p.1 == k then (p.1, p.2 + 1) else p)
  else d ++ [(k, 1)]

/-- The inner loop of `_calculate_flow_counts`: walk the adjacent pairs of the
counts of one at-bat group and increment each transition found in the legal set. -/
def addTransitions (fc : List ((String × String) × Nat)) (counts : List String) :
    List ((String × String) × Nat) :=
  (counts.zip counts.tail).foldl
    (fun fc t => if t ∈ COUNT_TRANSITIONS then dictIncr fc t else fc) fc

/-- `PlinkoChartGenerator._calculate_flow_counts`: sort by
`(game_date, at_bat_number, pitch_number)`, group by `(game_date, at_bat_number)`,
count legal transitions between sequence-adjacent counts within each group. -/
def calculateFlowCounts (pitch_data : List PitchEvent) : List ((String × String) × Nat) :=
  (groupRuns (sortEvents pitch_data)).foldl
    (fun fc g => addTransitions fc (g.map countOf)) []

/-- One tallying step of `value_counts`: bump the entry of `v`, appending a
first-seen value at the end. -/
def bumpCount (acc : List (String × Nat)) (v : String) : List (String × Nat) :=
  if acc.any (fun p => p.1 == v) then
    acc.map (fun p => if p.1 == v then (p.1, p.2 + 1) else p)
  else acc ++ [(v, 1)]

/-- Descending-by-frequency order used by `value_counts`. -/
def descByCount (p q : String × Nat) : Prop := q.2 ≤ p.2

instance : DecidableRel descByCount := fun p q => by unfold descByCount; exact inferInstance

instance : IsTotal (String × Nat) descByCount :=
  ⟨fun p q => by unfold descByCount; omega⟩

instance : IsTrans (String × Nat) descByCount :=
  ⟨fun p q r hpq hqr => by unfold descByCount at *; omega⟩

/-- pandas `Series.value_counts()`: drop nulls, tally occurrences (uniques in
order of first appearance), then sort by count descending; on the frames at
issue the sort is stable, so ties keep first-appearance order. -/
def valueCounts (vs : List (Option String)) : List (String × Nat) :=
  List.insertionSort descByCount ((vs.filterMap id).foldl bumpCount [])

/-- `PlinkoChartGenerator._calculate_count_data`: for each of the 12 counts, the
pitch-type frequency table of the rows whose `count` column matches. -/
def calculateCountData (pitch_data : List PitchEvent) :
    List (String × List (String × Nat)) :=
  COUNT_POSITIONS.map (fun cp =>
    (cp.1, valueCounts ((pitch_data.filter (fun e => countOf e == cp.1)).map (·.pitch_type))))

/-- The distribution stored for one count (`self.count_data[count]`, empty when absent). -/
def distFor (count_data : List (String × List (String × Nat))) (count : String) :
    List (String × Nat) :=
  ((count_data.find? (fun p => p.1 == count)).map (·.2)).getD []

/-- Python `dict.get(k, default)` on a string-keyed table. -/
def lookupD (m : List (String × String)) (k d : String) : String :=
  ((m.find? (fun p => p.1 == k)).map (·.2)).getD d

/-- One matplotlib `Wedge(center, r, theta1, theta2)`: the wedge sweeps
counterclockwise from `theta1` to `theta2` (degrees, standard math convention). -/
structure WedgeSpec where
  wtype : String
  theta1 : ℚ
  theta2 : ℚ
  color : String
deriving DecidableEq

/-- The wedge loop of `_draw_count_node`: starting at `start_angle`, each pitch
type gets a wedge of span `360 * (count_val / total_pitches)` and the start angle
advances by that span. -/
def wedgesFrom (start total : ℚ) : List (String × Nat) → List WedgeSpec
  | [] => []
  | p :: rest =>
    let angle := 360 * ((p.2 : ℚ) / total)
    ⟨p.1, start, start + angle, lookupD PITCH_COLORS p.1 "#cccccc"⟩ ::
      wedgesFrom (start + angle) total rest

/-- All wedges of one count node: the loop starts at `start_angle = 90`. -/
def drawWedges (dist : List (String × Nat)) : List WedgeSpec :=
  wedgesFrom 90 ((dist.map (·.2)).sum : Nat) dist

/-- What `_draw_count_node` draws for one count. -/
inductive NodeSpec where
  /-- No data: a lightgray disc of radius `pie_radius` with the centered count label. -/
  | emptyDisc (center : ℚ × ℚ) (label : String) : NodeSpec
  /-- Data: pie wedges, the inner disc (donut effect), the centered count label and
  the pitch-total label below the node. -/
  | pie (center : ℚ × ℚ) (wedges : List WedgeSpec) (innerRadius : ℚ)
      (label : String) (total : Nat) : NodeSpec
deriving DecidableEq

/-- `PlinkoChartGenerator._draw_count_node`. -/
def drawCountNode (count_data : List (String × List (String × Nat)))
    (count : String) (position : ℚ × ℚ) : NodeSpec :=
  let dist := distFor count_data count
  if dist = [] then .emptyDisc position count
  else .pie position (drawWedges dist) (pie_radius * inner_circle_frac) count
    ((dist.map (·.2)).sum)

/-- One drawn connecting segment of `_draw_connecting_lines`. -/
structure EdgeSpec where
  startCount : String
  endCount : String
  p1 : ℚ × ℚ
  p2 : ℚ × ℚ
  width : ℚ
deriving DecidableEq

/-- The membership guard `c in COUNT_POSITIONS`. -/
def hasPos (c : String) : Bool := COUNT_POSITIONS.any (fun p => p.1 == c)

/-- The lookup `COUNT_POSITIONS[c]` (only evaluated after the membership guard). -/
def posD (c : String) : ℚ × ℚ :=
  ((COUNT_POSITIONS.find? (fun p => p.1 == c)).map (·.2)).getD (0, 0)

/-- The maximum of the flow dict's values (`max(self.flow_counts.values())`);
on a non-empty dict the `0` seed of the fold is inert since values are `Nat`. -/
def maxFlowOf (flow_counts : List ((String × String) × Nat)) : Nat :=
  (flow_counts.map (·.2)).foldl max 0

/-- `PlinkoChartGenerator._draw_connecting_lines`: nothing on an empty dict;
otherwise one segment per legal transition with positive flow, of width
`min_width + (flow_count / max_flow) * (max_width - min_width)`. -/
def drawConnectingLines (flow_counts : List ((String × String) × Nat)) : List EdgeSpec :=
  if flow_counts = [] then []
  else
    COUNT_TRANSITIONS.filterMap (fun t =>
      if hasPos t.1 && hasPos t.2 then
        let flow_count := dictGet flow_counts t
        if flow_count > 0 then
          some ⟨t.1, t.2, posD t.1, posD t.2,
            min_line_width +
              ((flow_count : ℚ) / (maxFlowOf flow_counts : ℚ)) *
                (max_line_width - min_line_width)⟩
        else none
      else none)

/-- One legend patch of `_create_legend`. -/
structure LegendEntry where
  color : String
  label : String
deriving DecidableEq

/-- The `(pitch_type, count)` rows that survive the legend filter: entries of
`value_counts` whose pitch type has a color (`pd.notna` is always true there,
since `value_counts` already drops nulls). -/
def legendRows (pitch_data : List PitchEvent) : List (String × Nat) :=
  (valueCounts (pitch_data.map (·.pitch_type))).filter
    (fun p => PITCH_COLORS.any (fun c => c.1 == p.1))

/-- `PlinkoChartGenerator._create_legend`: a patch per surviving row, colored by
`PITCH_COLORS` and labeled `f"{PITCH_NAMES.get(t, t)} ({count})"`. -/
def createLegend (pitch_data : List PitchEvent) : List LegendEntry :=
  (legendRows pitch_data).map (fun p =>
    ⟨lookupD PITCH_COLORS p.1 p.1,
     lookupD PITCH_NAMES p.1 p.1 ++ " (" ++ toString p.2 ++ ")"⟩)

/-- The figure assembled by `generate_chart`. -/
structure ChartSpec where
  edges : List EdgeSpec
  nodes : List NodeSpec
  legend : List LegendEntry
  title : String
deriving DecidableEq

/-- `PlinkoChartGenerator.generate_chart`: edges beneath nodes, one node per
count of `COUNT_POSITIONS`, the legend, and the title with name and pitch total. -/
def generateChart (pitch_data : List PitchEvent) (pitcher_name : String) : ChartSpec :=
  let count_data := calculateCountData pitch_data
  let flow_counts := calculateFlowCounts pitch_data
  { edges := drawConnectingLines flow_counts
    nodes := COUNT_POSITIONS.map (fun cp => drawCountNode count_data cp.1 cp.2)
    legend := createLegend pitch_data
    title := pitcher_name ++ " - Pitch Distribution by Count\nTotal Pitches: " ++
      toString pitch_data.length }

/-- A raw row as the chart generator receives it when the caller violates the
input contract: the identifying keys may be null. -/
structure RawPitchEvent where
  game_date : Option Nat
  at_bat_number : Option Nat
  pitch_number : Nat
  balls : Nat
  strikes : Nat
  pitch_type : Option String
deriving DecidableEq

/-- A raw row with both group keys present, as a `PitchEvent`. -/
def rawToEvent (r : RawPitchEvent) : Option PitchEvent :=
  match r.game_date, r.at_bat_number with
  | some g, some ab => some ⟨g, ab, r.pitch_number, r.balls, r.strikes, r.pitch_type⟩
  | _, _ => none

/-- `_calculate_flow_counts` on rows with possibly-null identifying keys: pandas
`sort_values` places null keys last and `groupby(['game_date', 'at_bat_number'])`
(default `dropna=True`) silently drops every row whose group key is null, so the
transition count proceeds on the remaining rows and nothing is raised. -/
def calculateFlowCountsRaw (raw : List RawPitchEvent) : List ((String × String) × Nat) :=
  calculateFlowCounts (raw.filterMap rawToEvent)

/-! Concrete inputs used by the scenario claims and the witnesses. -/

/-- At-bat A, pitch 1: count 0-0. -/
def evA1 : PitchEvent := ⟨1, 1, 1, 0, 0, some "FF"⟩

/-- At-bat A, pitch 2: count 1-0. -/
def evA2 : PitchEvent := ⟨1, 1, 2, 1, 0, some "SL"⟩

/-- At-bat A, pitch 3: count 1-1. -/
def evA3 : PitchEvent := ⟨1, 1, 3, 1, 1, some "FF"⟩

/-- At-bat B, pitch 1: count 0-0. -/
def evB1 : PitchEvent := ⟨1, 2, 1, 0, 0, some "CH"⟩

/-- At-bat B, pitch 2: count 0-1. -/
def evB2 : PitchEvent := ⟨1, 2, 2, 0, 1, some "FF"⟩

/-- The scenario input: 3 events in at-bat A (counts 0-0, 1-0, 1-1) and 2 events
in at-bat B (counts 0-0, 0-1). -/
def scenarioEvents : List PitchEvent := [evA1, evA2, evA3, evB1, evB2]

/-- The flow table of the edge-width scaling scenario: 80 on (0-0, 1-0), 20 on (0-0, 0-1). -/
def flowExample : List ((String × String) × Nat) :=
  [(("0-0", "1-0"), 80), (("0-0", "0-1"), 20)]

/-- A contract-violating raw row: null `game_date`. -/
def rawNull : RawPitchEvent := ⟨none, some 1, 1, 3, 2, some "FF"⟩

/-- A well-formed raw row (at-bat A pitch 1, count 0-0). -/
def rawA1 : RawPitchEvent := ⟨some 1, some 1, 1, 0, 0, some "FF"⟩

/-- A well-formed raw row (at-bat A pitch 2, count 1-0). -/
def rawA2 : RawPitchEvent := ⟨some 1, some 1, 2, 1, 0, some "SL"⟩

/-!  ## General lemmas  -/

/-- A fold preserves any invariant its step preserves. -/
theorem foldl_preserves {α β : Type} (step : β → α → β) (P : β → Prop)
    (hstep : ∀ acc x, P acc → P (step acc x)) :
    ∀ (l : List α) (acc : β), P acc → P (l.foldl step acc) := by
  intro l
  induction l with
  | nil => intro acc h; exact h
  | cons x xs ih => intro acc h; exact ih (step acc x) (hstep acc x h)

/-- Every key of `dictIncr d k` is `k` or a key of `d`. -/
theorem dictIncr_keys {d : List ((String × String) × Nat)} {k : String × String}
    {p : (String × String) × Nat} (hp : p ∈ dictIncr d k) :
    p.1 = k ∨ ∃ q ∈ d, p.1 = q.1 := by
  unfold dictIncr at hp
  by_cases hc : d.any (fun p => p.1 == k)
  · rw [if_pos hc] at hp
    obtain ⟨q, hq, hqe⟩ := List.mem_map.mp hp
    by_cases hqk : q.1 == k
    · rw [if_pos hqk] at hqe
      exact Or.inr ⟨q, hq, by rw [← hqe]⟩
    · rw [if_neg hqk] at hqe
      exact Or.inr ⟨q, hq, by rw [← hqe]⟩
  · rw [if_neg hc] at hp
    rcases List.mem_append.mp hp with h | h
    · exact Or.inr ⟨p, h, rfl⟩
    · left
      rw [List.mem_singleton.mp h]

/-- The transition loop only ever inserts keys from the legal set. -/
theorem addTransitions_keys_legal {fc : List ((String × String) × Nat)}
    (hfc : ∀ p ∈ fc, p.1 ∈ COUNT_TRANSITIONS) (counts : List String) :
    ∀ p ∈ addTransitions fc counts, p.1 ∈ COUNT_TRANSITIONS := by
  unfold addTransitions
  refine foldl_preserves _
    (fun d : List ((String × String) × Nat) => ∀ p ∈ d, p.1 ∈ COUNT_TRANSITIONS) ?_ _ fc hfc
  intro acc t hacc p hp
  by_cases ht : t ∈ COUNT_TRANSITIONS
  · rw [if_pos ht] at hp
    rcases dictIncr_keys hp with h | ⟨q, hq, hqe⟩
    · rw [h]; exact ht
    · rw [hqe]; exact hacc q hq
  · rw [if_neg ht] at hp
    exact hacc p hp

/-!  ## C3: legal-set closure of the flow table  -/

/-- C3: every key stored in the FlowTable returned by `_calculate_flow_counts` is
a member of the fixed 17-pair legal transition set `COUNT_TRANSITIONS`; pairs
outside the set are never stored (observed illegal transitions are dropped
without any error, the function being total). -/
theorem flow_table_keys_legal (events : List PitchEvent) :
    ∀ k v, ((k, v) ∈ calculateFlowCounts events) → k ∈ COUNT_TRANSITIONS := by
  intro k v hkv
  unfold calculateFlowCounts at hkv
  have : ∀ p ∈ (groupRuns (sortEvents events)).foldl
      (fun fc g => addTransitions fc (g.map countOf)) [],
      p.1 ∈ COUNT_TRANSITIONS := by
    refine foldl_preserves _
      (fun d : List ((String × String) × Nat) => ∀ p ∈ d, p.1 ∈ COUNT_TRANSITIONS) ?_ _ []
      (by intro p hp; cases hp)
    intro acc g hacc
    exact addTransitions_keys_legal hacc _
  exact this (k, v) hkv

/-- Witness for C3: at the scenario input, the stored pair `((0-0, 1-0), 1)`
indeed has its key in the legal set. -/
theorem flow_table_keys_legal_witness :
    (("0-0", "1-0"), 1) ∈ calculateFlowCounts scenarioEvents ∧
      ("0-0", "1-0") ∈ COUNT_TRANSITIONS :=
  ⟨by decide, flow_table_keys_legal scenarioEvents ("0-0", "1-0") 1 (by decide)⟩

/-!  ## C2: the two-at-bat scenario  -/

/-- C2: on the scenario input (3 events of at-bat A with counts 0-0, 1-0, 1-1 and
2 events of at-bat B with counts 0-0, 0-1), `_calculate_flow_counts` stores count 1
for each of (0-0, 1-0), (1-0, 1-1), (0-0, 0-1) and reads back 0 for every other
legal transition. -/
theorem scenario_flow_table :
    calculateFlowCounts scenarioEvents =
      [(("0-0", "1-0"), 1), (("1-0", "1-1"), 1), (("0-0", "0-1"), 1)] ∧
    (COUNT_TRANSITIONS.all (fun t =>
      dictGet (calculateFlowCounts scenarioEvents) t ==
        (if t == ("0-0", "1-0") || t == ("1-0", "1-1") || t == ("0-0", "0-1")
          then 1 else 0))) = true := by
  constructor
  · decide
  · decide

/-!  ## Stability of insertion sort and uniqueness of the sorted order  -/

/-- Inserting into a list keeps the filtered sublist intact when all elements
satisfying `p` compare `r`-below one another (so `a` goes after none of them). -/
theorem filter_orderedInsert {α : Type} (r : α → α → Prop) [DecidableRel r]
    (p : α → Bool) (hp : ∀ x y, p x = true → p y = true → r x y) (a : α) :
    ∀ l : List α, (List.orderedInsert r a l).filter p =
      if p a then a :: l.filter p else l.filter p := by
  intro l
  induction l with
  | nil =>
    cases hpa : p a <;> simp [List.orderedInsert, List.filter, hpa]
  | cons b t ih =>
    by_cases hab : r a b
    · cases hpa : p a <;> simp [List.orderedInsert, if_pos hab, List.filter_cons, hpa]
    · by_cases hpa : p a = true
      · by_cases hpb : p b = true
        · exact absurd (hp a b hpa hpb) hab
        · simp [List.orderedInsert, if_neg hab, List.filter_cons, hpa, hpb, ih]
      · simp [List.orderedInsert, if_neg hab, List.filter_cons, hpa, ih]

/-- Stability of insertion sort: the subsequence of elements satisfying `p` is
untouched whenever the elements satisfying `p` are mutually `r`-comparable ties. -/
theorem filter_insertionSort {α : Type} (r : α → α → Prop) [DecidableRel r]
    (p : α → Bool) (hp : ∀ x y, p x = true → p y = true → r x y) :
    ∀ l : List α, (List.insertionSort r l).filter p = l.filter p := by
  intro l
  induction l with
  | nil => rfl
  | cons a t ih =>
    rw [List.insertionSort, filter_orderedInsert r p hp a]
    cases hpa : p a <;> simp [List.filter_cons, hpa, ih]

/-- Two sorted lists that are permutations of each other agree, provided `r` is
antisymmetric on the members involved. -/
theorem eq_of_perm_of_sorted_antisymm_mem {α : Type} (r : α → α → Prop) :
    ∀ (l₁ l₂ : List α), List.Perm l₁ l₂ → l₁.Sorted r → l₂.Sorted r →
      (∀ x ∈ l₁, ∀ y ∈ l₁, r x y → r y x → x = y) → l₁ = l₂ := by
  intro l₁
  induction l₁ with
  | nil =>
    intro l₂ h _ _ _
    exact (List.Perm.eq_nil h.symm).symm
  | cons a t₁ ih =>
    intro l₂ h s₁ s₂ anti
    cases l₂ with
    | nil => exact absurd (List.Perm.eq_nil h) (by simp)
    | cons b t₂ =>
      have hb : a = b := by
        rcases List.mem_cons.mp (h.mem_iff.mp (List.mem_cons_self a t₁)) with hab | hat₂
        · exact hab
        · rcases List.mem_cons.mp (h.mem_iff.mpr (List.mem_cons_self b t₂)) with hba | hbt₁
          · exact hba.symm
          · exact anti a (List.mem_cons_self a t₁) b (List.mem_cons.mpr (Or.inr hbt₁))
              (List.rel_of_sorted_cons s₁ b hbt₁) (List.rel_of_sorted_cons s₂ a hat₂)
      subst hb
      have ht : t₁ = t₂ := by
        refine ih t₂ (List.Perm.cons_inv h) (List.Sorted.of_cons s₁)
          (List.Sorted.of_cons s₂) ?_
        intro x hx y hy
        exact anti x (List.mem_cons.mpr (Or.inr hx)) y (List.mem_cons.mpr (Or.inr hy))
      rw [ht]

/-- The full sort key of `sort_values(by=['game_date', 'at_bat_number', 'pitch_number'])`. -/
def fullkey (e : PitchEvent) : Nat × Nat × Nat :=
  (e.game_date, e.at_bat_number, e.pitch_number)

/-- Mutually `sortKeyLe`-comparable events have equal full sort keys. -/
theorem fullkey_eq_of_sortKeyLe {x y : PitchEvent}
    (hxy : sortKeyLe x y) (hyx : sortKeyLe y x) : fullkey x = fullkey y := by
  unfold sortKeyLe at hxy hyx
  unfold fullkey
  simp only [Prod.mk.injEq]
  omega

/-- Events with equal full sort keys are `sortKeyLe`-comparable. -/
theorem sortKeyLe_of_fullkey_eq {x y : PitchEvent} (h : fullkey x = fullkey y) :
    sortKeyLe x y := by
  unfold fullkey at h
  simp only [Prod.mk.injEq] at h
  unfold sortKeyLe
  omega

/-- The sorted frame is a permutation of the input frame. -/
theorem sortEvents_perm (l : List PitchEvent) : List.Perm (sortEvents l) l :=
  List.perm_insertionSort sortKeyLe l

/-- The sorted frame is sorted by the lexicographic key. -/
theorem sortEvents_sorted (l : List PitchEvent) : (sortEvents l).Sorted sortKeyLe :=
  List.sorted_insertionSort sortKeyLe l

/-- When all full sort keys are distinct, the sorted frame depends only on the
multiset of rows: permuting the input does not change it. -/
theorem sortEvents_eq_of_perm (l l' : List PitchEvent) (hperm : List.Perm l l')
    (hkeys : l.Pairwise (fun a b => fullkey a ≠ fullkey b)) :
    sortEvents l = sortEvents l' := by
  refine eq_of_perm_of_sorted_antisymm_mem sortKeyLe (sortEvents l) (sortEvents l')
    (((sortEvents_perm l).trans hperm).trans (sortEvents_perm l').symm)
    (sortEvents_sorted l) (sortEvents_sorted l') ?_
  intro x hx y hy hxy hyx
  by_contra hne
  have hx' : x ∈ l := (sortEvents_perm l).mem_iff.mp hx
  have hy' : y ∈ l := (sortEvents_perm l).mem_iff.mp hy
  have : fullkey x ≠ fullkey y := by
    have hsymm : Symmetric (fun a b : PitchEvent => fullkey a ≠ fullkey b) := by
      intro u v huv
      exact fun hvu => huv hvu.symm
    exact List.Pairwise.forall hsymm hkeys hx' hy' hne
  exact this (fullkey_eq_of_sortKeyLe hxy hyx)

/-!  ## Structure of the grouped, sorted frame  -/

/-- Concatenating the groups gives back the grouped list. -/
theorem join_groupRuns : ∀ l : List PitchEvent, (groupRuns l).flatten = l := by
  intro l
  induction l with
  | nil => rfl
  | cons a l ih =>
    cases hgr : groupRuns l with
    | nil =>
      rw [hgr] at ih
      simp only [groupRuns, hgr]
      simp [← ih]
    | cons g0 gs =>
      cases g0 with
      | nil =>
        rw [hgr] at ih
        simp only [groupRuns, hgr]
        simp only [List.flatten_cons] at ih ⊢
        simp [← ih]
      | cons b g =>
        rw [hgr] at ih
        by_cases hk : gkey a = gkey b
        · simp only [groupRuns, hgr, if_pos hk]
          simp only [List.flatten_cons] at ih ⊢
          simp [← ih]
        · simp only [groupRuns, hgr, if_neg hk]
          simp only [List.flatten_cons] at ih ⊢
          simp [← ih]

/-- No group is empty. -/
theorem nil_not_mem_groupRuns : ∀ l : List PitchEvent, [] ∉ groupRuns l := by
  intro l
  induction l with
  | nil => simp [groupRuns]
  | cons a l ih =>
    cases hgr : groupRuns l with
    | nil => simp [groupRuns, hgr]
    | cons g0 gs =>
      cases g0 with
      | nil => exact absurd (by rw [hgr]; exact List.mem_cons_self _ _) ih
      | cons b g =>
        by_cases hk : gkey a = gkey b
        · simp only [groupRuns, hgr, if_pos hk]
          intro hmem
          rcases List.mem_cons.mp hmem with h | h
          · exact List.cons_ne_nil _ _ h.symm
          · exact ih (by rw [hgr]; exact List.mem_cons.mpr (Or.inr h))
        · simp only [groupRuns, hgr, if_neg hk]
          intro hmem
          rcases List.mem_cons.mp hmem with h | h
          · exact List.cons_ne_nil _ _ h.symm
          · exact ih (by rw [hgr]; exact h)

/-- All members of one group share the group key. -/
theorem groupRuns_key_const :
    ∀ l : List PitchEvent, ∀ g ∈ groupRuns l, ∀ x ∈ g, ∀ y ∈ g, gkey x = gkey y := by
  intro l
  induction l with
  | nil => simp [groupRuns]
  | cons a l ih =>
    intro g hg x hx y hy
    cases hgr : groupRuns l with
    | nil =>
      rw [hgr] at ih
      simp only [groupRuns, hgr] at hg
      rcases List.mem_singleton.mp hg with rfl
      rw [List.mem_singleton.mp hx, List.mem_singleton.mp hy]
    | cons g0 gs =>
      cases g0 with
      | nil => exact absurd (by rw [hgr]; exact List.mem_cons_self _ _) (nil_not_mem_groupRuns l)
      | cons b g1 =>
        have hgrp : ∀ z ∈ b :: g1, gkey z = gkey b := fun z hz =>
          ih (b :: g1) (by rw [hgr]; exact List.mem_cons_self _ _) z hz b
            (List.mem_cons_self _ _)
        by_cases hk : gkey a = gkey b
        · simp only [groupRuns, hgr, if_pos hk] at hg
          rcases List.mem_cons.mp hg with rfl | hgs
          · have key_of : ∀ z ∈ a :: b :: g1, gkey z = gkey b := by
              intro z hz
              rcases List.mem_cons.mp hz with rfl | hz'
              · exact hk
              · exact hgrp z hz'
            rw [key_of x hx, key_of y hy]
          · exact ih g (by rw [hgr]; exact List.mem_cons.mpr (Or.inr hgs)) x hx y hy
        · simp only [groupRuns, hgr, if_neg hk] at hg
          rcases List.mem_cons.mp hg with rfl | hgs
          · rw [List.mem_singleton.mp hx, List.mem_singleton.mp hy]
          · exact ih g (by rw [hgr]; exact hgs) x hx y hy

/-- A member of a list of lists is a sublist of the concatenation. -/
theorem sublist_join_of_mem {α : Type} :
    ∀ {gs : List (List α)} {g : List α}, g ∈ gs → List.Sublist g gs.flatten := by
  intro gs
  induction gs with
  | nil => intro g hg; cases hg
  | cons h t ih =>
    intro g hg
    rw [List.flatten_cons]
    rcases List.mem_cons.mp hg with rfl | hgt
    · exact List.sublist_append_left g t.flatten
    · exact (ih hgt).trans (List.sublist_append_right h t.flatten)

/-- Every group is a sublist of the grouped list. -/
theorem groupRuns_sublist {l : List PitchEvent} {g : List PitchEvent}
    (hg : g ∈ groupRuns l) : List.Sublist g l :=
  join_groupRuns l ▸ sublist_join_of_mem hg

/-- Squeeze lemma for group keys along the sort order: if `a` sorts before `b`
and `b` before `y`, and `a`'s group key differs from `b`'s, then `a`'s group key
also differs from `y`'s. -/
theorem gkey_squeeze {a b y : PitchEvent} (hab : sortKeyLe a b) (hby : sortKeyLe b y)
    (hne : gkey a ≠ gkey b) : gkey a ≠ gkey y := by
  unfold sortKeyLe at hab hby
  unfold gkey at hne ⊢
  intro h
  have h1 : a.game_date = y.game_date := congrArg Prod.fst h
  have h2 : a.at_bat_number = y.at_bat_number := congrArg Prod.snd h
  apply hne
  have hc : a.game_date = b.game_date ∧ a.at_bat_number = b.at_bat_number := by omega
  exact Prod.ext hc.1 hc.2

/-- On a sorted list, distinct groups carry distinct group keys: the grouping is
keyed exactly by `(game_date, at_bat_number)`. -/
theorem groupRuns_pairwise_ne :
    ∀ l : List PitchEvent, l.Sorted sortKeyLe →
      (groupRuns l).Pairwise (fun g h => ∀ x ∈ g, ∀ y ∈ h, gkey x ≠ gkey y) := by
  intro l
  induction l with
  | nil => intro _; exact List.Pairwise.nil
  | cons a l ih =>
    intro hs
    have hsl : l.Sorted sortKeyLe := hs.of_cons
    have hrel : ∀ y ∈ l, sortKeyLe a y := List.rel_of_sorted_cons hs
    cases hgr : groupRuns l with
    | nil => simp [groupRuns, hgr]
    | cons g0 gs =>
      cases g0 with
      | nil => exact absurd (by rw [hgr]; exact List.mem_cons_self _ _) (nil_not_mem_groupRuns l)
      | cons b g1 =>
        have hjoin : (b :: g1) ++ gs.flatten = l := by
          have h := join_groupRuns l
          rw [hgr] at h
          simpa [List.flatten_cons] using h
        have hbl : b ∈ l := by
          rw [← hjoin]; exact List.mem_append.mpr (Or.inl (List.mem_cons_self _ _))
        have hkeyg : ∀ z ∈ b :: g1, gkey z = gkey b := fun z hz =>
          groupRuns_key_const l (b :: g1) (by rw [hgr]; exact List.mem_cons_self _ _) z hz b
            (List.mem_cons_self _ _)
        have hyl : ∀ h ∈ gs, ∀ y ∈ h, sortKeyLe b y := by
          intro h hh y hy
          have hy' : y ∈ gs.flatten := List.mem_flatten.mpr ⟨h, hh, hy⟩
          have hl : l = b :: (g1 ++ gs.flatten) := by rw [← hjoin]; rfl
          rw [hl] at hsl
          exact List.rel_of_sorted_cons hsl y (List.mem_append.mpr (Or.inr hy'))
        have ihp := ih hsl
        rw [hgr] at ihp
        by_cases hk : gkey a = gkey b
        · simp only [groupRuns, hgr, if_pos hk]
          refine List.pairwise_cons.mpr ⟨?_, List.Pairwise.of_cons ihp⟩
          intro h hh x hx y hy
          have hbh : ∀ u ∈ b :: g1, ∀ v ∈ h, gkey u ≠ gkey v :=
            (List.pairwise_cons.mp ihp).1 h hh
          rcases List.mem_cons.mp hx with rfl | hx'
          · rw [hk]
            exact hbh b (List.mem_cons_self _ _) y hy
          · exact hbh x hx' y hy
        · simp only [groupRuns, hgr, if_neg hk]
          refine List.pairwise_cons.mpr ⟨?_, ihp⟩
          intro h hh x hx y hy
          rcases List.mem_singleton.mp hx with rfl
          rcases List.mem_cons.mp hh with rfl | hh'
          · intro hxy
            exact hk (by rw [hxy, hkeyg y hy])
          · exact gkey_squeeze (hrel b hbl) (hyl h hh' y hy) hk

/-- Within each group of the sorted frame, events are ordered by
ascending `pitch_number`. -/
theorem groupRuns_sorted_by_seq {l : List PitchEvent} {g : List PitchEvent}
    (hg : g ∈ groupRuns (sortEvents l)) :
    g.Pairwise (fun x y => x.pitch_number ≤ y.pitch_number) := by
  have hsorted : g.Sorted sortKeyLe :=
    List.Pairwise.sublist (groupRuns_sublist hg) (sortEvents_sorted l)
  have hconst := groupRuns_key_const (sortEvents l) g hg
  refine List.Pairwise.imp_of_mem ?_ hsorted
  intro x y hx hy hxy
  have hkey := hconst x hx y hy
  unfold sortKeyLe at hxy
  unfold gkey at hkey
  simp only [Prod.mk.injEq] at hkey
  omega

/-- A filter that selects only rows of one group's key reads the same sublist
from the whole frame as from that group. -/
theorem filter_flatten_single (p : PitchEvent → Bool) (x : PitchEvent)
    (hp : ∀ e, p e = true → gkey e = gkey x) :
    ∀ (G : List (List PitchEvent)) (g : List PitchEvent), g ∈ G →
      G.Pairwise (fun g h => ∀ u ∈ g, ∀ v ∈ h, gkey u ≠ gkey v) →
      x ∈ g → G.flatten.filter p = g.filter p := by
  intro G
  induction G with
  | nil => intro g hg; cases hg
  | cons h t ih =>
    intro g hg hP hx
    rw [List.flatten_cons, List.filter_append]
    rcases List.mem_cons.mp hg with rfl | hgt
    · have hnil : t.flatten.filter p = [] := by
        rw [List.filter_eq_nil_iff]
        intro e he hpe
        obtain ⟨h', hh', he'⟩ := List.mem_flatten.mp he
        exact (List.pairwise_cons.mp hP).1 h' hh' x hx e he' (hp e hpe).symm
      rw [hnil, List.append_nil]
    · have hnil : h.filter p = [] := by
        rw [List.filter_eq_nil_iff]
        intro e he hpe
        exact (List.pairwise_cons.mp hP).1 g hgt e he x hx (hp e hpe)
      rw [hnil, List.nil_append]
      exact ih g hgt (List.Pairwise.of_cons hP) hx

/-- Stable ties: the rows of one group that carry a given `pitch_number` appear
in the group exactly as they appear (and are ordered) in the original input. -/
theorem group_filter_stable (events : List PitchEvent) :
    ∀ g ∈ groupRuns (sortEvents events), ∀ x ∈ g, ∀ s : Nat,
      g.filter (fun e => decide (gkey e = gkey x) && (e.pitch_number == s)) =
        events.filter (fun e => decide (gkey e = gkey x) && (e.pitch_number == s)) := by
  intro g hg x hx s
  have hp : ∀ e, (decide (gkey e = gkey x) && (e.pitch_number == s)) = true →
      gkey e = gkey x ∧ e.pitch_number = s := by
    intro e he
    simp only [Bool.and_eq_true, decide_eq_true_eq, Nat.beq_eq_true_eq] at he
    exact he
  have htie : ∀ e e', (decide (gkey e = gkey x) && (e.pitch_number == s)) = true →
      (decide (gkey e' = gkey x) && (e'.pitch_number == s)) = true → sortKeyLe e e' := by
    intro e e' he he'
    obtain ⟨hke, hse⟩ := hp e he
    obtain ⟨hke', hse'⟩ := hp e' he'
    have hk : gkey e = gkey e' := hke.trans hke'.symm
    have h1 : e.game_date = e'.game_date := congrArg Prod.fst hk
    have h2 : e.at_bat_number = e'.at_bat_number := congrArg Prod.snd hk
    unfold sortKeyLe
    omega
  have h1 : (sortEvents events).filter
        (fun e => decide (gkey e = gkey x) && (e.pitch_number == s)) =
      events.filter (fun e => decide (gkey e = gkey x) && (e.pitch_number == s)) :=
    filter_insertionSort sortKeyLe _ htie events
  have h2 := filter_flatten_single
    (fun e => decide (gkey e = gkey x) && (e.pitch_number == s)) x
    (fun e he => (hp e he).1) (groupRuns (sortEvents events)) g hg
    (groupRuns_pairwise_ne (sortEvents events) (sortEvents_sorted events)) hx
  rw [join_groupRuns] at h2
  exact h2.symm.trans h1

/-!  ## C1: grouping, ordering and stability of the flow computation  -/

/-- C1: the flow computation partitions the rows into groups keyed exactly by
`(game_date, at_bat_number)` — the groups concatenate to a permutation of the
input, none is empty, each is constant on the group key, and distinct groups
have distinct keys — and within each group rows are ordered by ascending
`pitch_number` with ties kept in original input order (the filter of any
full sort key reads identically from the group and from the raw input);
transitions are then formed from adjacent pairs of exactly these groups. -/
theorem flow_grouping_sound (events : List PitchEvent) :
    List.Perm (groupRuns (sortEvents events)).flatten events ∧
    (∀ g ∈ groupRuns (sortEvents events), g ≠ []) ∧
    (∀ g ∈ groupRuns (sortEvents events), ∀ x ∈ g, ∀ y ∈ g, gkey x = gkey y) ∧
    (groupRuns (sortEvents events)).Pairwise
      (fun g h => ∀ x ∈ g, ∀ y ∈ h, gkey x ≠ gkey y) ∧
    (∀ g ∈ groupRuns (sortEvents events),
      g.Pairwise (fun x y => x.pitch_number ≤ y.pitch_number)) ∧
    (∀ g ∈ groupRuns (sortEvents events), ∀ x ∈ g, ∀ s : Nat,
      g.filter (fun e => decide (gkey e = gkey x) && (e.pitch_number == s)) =
        events.filter (fun e => decide (gkey e = gkey x) && (e.pitch_number == s))) ∧
    calculateFlowCounts events =
      (groupRuns (sortEvents events)).foldl
        (fun fc g => addTransitions fc (g.map countOf)) [] := by
  refine ⟨?_, ?_, ?_, ?_, ?_, ?_, rfl⟩
  · rw [join_groupRuns]
    exact sortEvents_perm events
  · intro g hg hnil
    exact nil_not_mem_groupRuns (sortEvents events) (hnil ▸ hg)
  · exact groupRuns_key_const (sortEvents events)
  · exact groupRuns_pairwise_ne (sortEvents events) (sortEvents_sorted events)
  · intro g hg
    exact groupRuns_sorted_by_seq hg
  · exact group_filter_stable events

/-- Witness for C1: at the scenario input, the group of at-bat A is non-empty,
carries one key, and its pitch-2 tie class reads equally from group and input. -/
theorem flow_grouping_sound_witness :
    [evA1, evA2, evA3] ≠ [] ∧
    gkey evA1 = gkey evA3 ∧
    [evA1, evA2, evA3].filter
        (fun e => decide (gkey e = gkey evA1) && (e.pitch_number == 2)) =
      scenarioEvents.filter
        (fun e => decide (gkey e = gkey evA1) && (e.pitch_number == 2)) :=
  ⟨(flow_grouping_sound scenarioEvents).2.1 [evA1, evA2, evA3] (by decide),
   (flow_grouping_sound scenarioEvents).2.2.1 [evA1, evA2, evA3] (by decide)
     evA1 (by decide) evA3 (by decide),
   (flow_grouping_sound scenarioEvents).2.2.2.2.2.1 [evA1, evA2, evA3] (by decide)
     evA1 (by decide) 2⟩

/-!  ## C4: permutation invariance of the flow table  -/

/-- C4: with all `(game_date, at_bat_number, pitch_number)` sort keys distinct
(as the input contract's strictly increasing sequence numbers guarantee),
reordering the input rows does not change the flow table. -/
theorem flow_permutation_invariant (events events' : List PitchEvent)
    (hperm : List.Perm events events')
    (hkeys : events.Pairwise (fun a b => fullkey a ≠ fullkey b)) :
    calculateFlowCounts events = calculateFlowCounts events' := by
  unfold calculateFlowCounts
  rw [sortEvents_eq_of_perm events events' hperm hkeys]

/-- Witness for C4: a concrete permutation of the scenario input yields the same
flow table. -/
theorem flow_permutation_invariant_witness :
    calculateFlowCounts scenarioEvents =
      calculateFlowCounts [evB2, evA3, evA1, evB1, evA2] :=
  flow_permutation_invariant scenarioEvents [evB2, evA3, evA1, evB1, evA2]
    (by decide) (by decide)

/-!  ## Counting facts about `value_counts`  -/

/-- Lookup in a tally table (`0` when absent). -/
def countGet (d : List (String × Nat)) (v : String) : Nat :=
  ((d.find? (fun p => p.1 == v)).map (·.2)).getD 0

/-- Lookup stops at a matching head. -/
theorem countGet_cons_of_pos {k : String} {x : Nat} {t : List (String × Nat)} {w : String}
    (h : k = w) : countGet ((k, x) :: t) w = x := by
  unfold countGet
  have hf : List.find? (fun p => p.1 == w) ((k, x) :: t) = some (k, x) :=
    List.find?_cons_of_pos t (beq_iff_eq.mpr h)
  rw [hf]
  rfl

/-- Lookup skips a non-matching head. -/
theorem countGet_cons_of_neg {k : String} {x : Nat} {t : List (String × Nat)} {w : String}
    (h : k ≠ w) : countGet ((k, x) :: t) w = countGet t w := by
  unfold countGet
  have hf : List.find? (fun p => p.1 == w) ((k, x) :: t) = List.find? (fun p => p.1 == w) t :=
    List.find?_cons_of_neg t (by simp [h])
  rw [hf]

/-- Effect of the in-place bump on lookups. -/
theorem countGet_map_bump (v : String) :
    ∀ acc : List (String × Nat),
      (countGet (acc.map (fun p => if p.1 == v then (p.1, p.2 + 1) else p)) v =
        countGet acc v + (if acc.any (fun p => p.1 == v) then 1 else 0)) ∧
      (∀ w, w ≠ v →
        countGet (acc.map (fun p => if p.1 == v then (p.1, p.2 + 1) else p)) w =
          countGet acc w) := by
  intro acc
  induction acc with
  | nil => exact ⟨rfl, fun w _ => rfl⟩
  | cons a t ih =>
    obtain ⟨k, x⟩ := a
    have hmap : ((k, x) :: t).map (fun p => if p.1 == v then (p.1, p.2 + 1) else p) =
        (if k == v then (k, x + 1) else (k, x)) ::
          t.map (fun p => if p.1 == v then (p.1, p.2 + 1) else p) := rfl
    constructor
    · by_cases hav : k = v
      · have hbeq : (k == v) = true := beq_iff_eq.mpr hav
        rw [hmap, hbeq, if_pos rfl, countGet_cons_of_pos hav, countGet_cons_of_pos hav,
          List.any_cons]
        show x + 1 = x + if ((k == v) || t.any fun p => p.1 == v) = true then 1 else 0
        rw [hbeq, Bool.true_or, if_pos rfl]
      · have hbeq : (k == v) = false := beq_eq_false_iff_ne.mpr hav
        rw [hmap, hbeq, if_neg (by simp), countGet_cons_of_neg hav, countGet_cons_of_neg hav,
          List.any_cons, hbeq, Bool.false_or]
        exact ih.1
    · intro w hw
      by_cases haw : k = w
      · have hav : k ≠ v := fun h => hw (haw ▸ h)
        have hbeq : (k == v) = false := beq_eq_false_iff_ne.mpr hav
        rw [hmap, hbeq, if_neg (by simp), countGet_cons_of_pos haw, countGet_cons_of_pos haw]
      · by_cases hav : k = v
        · have hbeq : (k == v) = true := beq_iff_eq.mpr hav
          rw [hmap, hbeq, if_pos rfl, countGet_cons_of_neg haw, countGet_cons_of_neg haw]
          exact ih.2 w hw
        · have hbeq : (k == v) = false := beq_eq_false_iff_ne.mpr hav
          rw [hmap, hbeq, if_neg (by simp), countGet_cons_of_neg haw, countGet_cons_of_neg haw]
          exact ih.2 w hw

/-- Lookup in an appended tally table. -/
theorem countGet_append (w : String) :
    ∀ acc d : List (String × Nat), countGet (acc ++ d) w =
      if acc.any (fun p => p.1 == w) then countGet acc w else countGet d w := by
  intro acc d
  induction acc with
  | nil => simp [countGet]
  | cons a t ih =>
    obtain ⟨k, x⟩ := a
    rw [List.cons_append]
    by_cases haw : k = w
    · have hbw : (k == w) = true := beq_iff_eq.mpr haw
      rw [countGet_cons_of_pos haw, List.any_cons, hbw, Bool.true_or, if_pos rfl,
        countGet_cons_of_pos haw]
    · have hbw : (k == w) = false := beq_eq_false_iff_ne.mpr haw
      rw [countGet_cons_of_neg haw, List.any_cons, hbw, Bool.false_or, ih,
        countGet_cons_of_neg haw]

/-- A key that matches no entry looks up to `0`. -/
theorem countGet_eq_zero_of_not_any (w : String) :
    ∀ acc : List (String × Nat), acc.any (fun p => p.1 == w) = false → countGet acc w = 0 := by
  intro acc
  induction acc with
  | nil => intro _; rfl
  | cons a t ih =>
    obtain ⟨k, x⟩ := a
    intro h
    rw [List.any_cons, Bool.or_eq_false_iff] at h
    rw [countGet_cons_of_neg (beq_eq_false_iff_ne.mp h.1)]
    exact ih h.2

/-- One bump adds exactly one occurrence of `v`. -/
theorem countGet_bumpCount (v w : String) (acc : List (String × Nat)) :
    countGet (bumpCount acc v) w = countGet acc w + if w = v then 1 else 0 := by
  unfold bumpCount
  by_cases hany : acc.any (fun p => p.1 == v) = true
  · rw [if_pos hany]
    by_cases hwv : w = v
    · subst hwv
      rw [(countGet_map_bump w acc).1, if_pos hany, if_pos rfl]
    · rw [(countGet_map_bump v acc).2 w hwv, if_neg hwv]
      rfl
  · rw [if_neg hany, countGet_append]
    by_cases hw : acc.any (fun p => p.1 == w) = true
    · rw [if_pos hw]
      have hwv : w ≠ v := by
        intro h
        subst h
        exact hany hw
      rw [if_neg hwv]
      rfl
    · rw [if_neg hw]
      have h0 : countGet acc w = 0 :=
        countGet_eq_zero_of_not_any w acc (Bool.not_eq_true _ ▸ hw)
      by_cases hwv : w = v
      · subst hwv
        rw [h0, countGet_cons_of_pos rfl, if_pos rfl]
      · rw [h0, countGet_cons_of_neg (Ne.symm hwv), if_neg hwv]
        rfl

/-- Folding the tally over a list counts occurrences. -/
theorem countGet_foldl (l : List String) :
    ∀ (acc : List (String × Nat)) (w : String),
      countGet (l.foldl bumpCount acc) w = countGet acc w + l.count w := by
  induction l with
  | nil => intro acc w; simp
  | cons a t ih =>
    intro acc w
    rw [List.foldl_cons, ih, countGet_bumpCount]
    by_cases h : w = a
    · subst h
      simp [List.count_cons]
      omega
    · simp [List.count_cons, h, Ne.symm h]

/-- The bump keeps the key list, appending `v` only when first seen. -/
theorem keys_bumpCount (acc : List (String × Nat)) (v : String) :
    (bumpCount acc v).map (·.1) =
      if acc.any (fun p => p.1 == v) then acc.map (·.1) else acc.map (·.1) ++ [v] := by
  unfold bumpCount
  by_cases hany : acc.any (fun p => p.1 == v) = true
  · rw [if_pos hany, if_pos hany, List.map_map]
    refine List.map_congr_left ?_
    intro p _
    by_cases h : p.1 = v
    · simp [Function.comp, beq_iff_eq.mpr h]
    · simp [Function.comp, beq_eq_false_iff_ne.mpr h]
  · rw [if_neg hany, if_neg hany, List.map_append]
    rfl

/-- The tally keys stay duplicate-free. -/
theorem nodup_keys_bumpCount {acc : List (String × Nat)} {v : String}
    (h : (acc.map (·.1)).Nodup) : ((bumpCount acc v).map (·.1)).Nodup := by
  rw [keys_bumpCount]
  by_cases hany : acc.any (fun p => p.1 == v) = true
  · rw [if_pos hany]
    exact h
  · rw [if_neg hany]
    have hv : v ∉ acc.map (·.1) := by
      intro hmem
      obtain ⟨p, hp, hpe⟩ := List.mem_map.mp hmem
      exact hany (List.any_eq_true.mpr ⟨p, hp, beq_iff_eq.mpr hpe⟩)
    simp [List.nodup_append, h, hv]

/-- Keys only grow under bumping. -/
theorem mem_keys_bumpCount {acc : List (String × Nat)} {w : String}
    (h : w ∈ acc.map (·.1)) (v : String) : w ∈ (bumpCount acc v).map (·.1) := by
  rw [keys_bumpCount]
  by_cases hany : acc.any (fun p => p.1 == v) = true
  · rw [if_pos hany]
    exact h
  · rw [if_neg hany]
    exact List.mem_append.mpr (Or.inl h)

/-- The bumped key is present afterwards. -/
theorem self_mem_keys_bumpCount (acc : List (String × Nat)) (v : String) :
    v ∈ (bumpCount acc v).map (·.1) := by
  rw [keys_bumpCount]
  by_cases hany : acc.any (fun p => p.1 == v) = true
  · rw [if_pos hany]
    obtain ⟨p, hp, hpe⟩ := List.any_eq_true.mp hany
    exact List.mem_map.mpr ⟨p, hp, beq_iff_eq.mp hpe⟩
  · rw [if_neg hany]
    exact List.mem_append.mpr (Or.inr (List.mem_singleton.mpr rfl))

/-- Keys persist through the whole tally fold. -/
theorem mem_keys_foldl_of_mem (l : List String) :
    ∀ (acc : List (String × Nat)) (w : String), w ∈ acc.map (·.1) →
      w ∈ (l.foldl bumpCount acc).map (·.1) := by
  induction l with
  | nil => intro acc w h; exact h
  | cons a t ih =>
    intro acc w hw
    rw [List.foldl_cons]
    exact ih (bumpCount acc a) w (mem_keys_bumpCount hw a)

/-- Every value of the list ends up among the tally keys. -/
theorem mem_keys_foldl (l : List String) :
    ∀ (acc : List (String × Nat)) (w : String), w ∈ l →
      w ∈ (l.foldl bumpCount acc).map (·.1) := by
  induction l with
  | nil => intro _ _ h; cases h
  | cons a t ih =>
    intro acc w hw
    rw [List.foldl_cons]
    rcases List.mem_cons.mp hw with rfl | hwt
    · exact mem_keys_foldl_of_mem t (bumpCount acc w) w (self_mem_keys_bumpCount acc w)
    · exact ih (bumpCount acc a) w hwt

/-- The sorted tally is a permutation of the raw tally. -/
theorem valueCounts_perm (vs : List (Option String)) :
    List.Perm (valueCounts vs) ((vs.filterMap id).foldl bumpCount []) :=
  List.perm_insertionSort descByCount _

/-- `value_counts` output is sorted by descending frequency (ties keep
first-appearance order by stability of the sort). -/
theorem valueCounts_sorted (vs : List (Option String)) :
    (valueCounts vs).Pairwise descByCount :=
  List.sorted_insertionSort descByCount _

/-- The raw tally has duplicate-free keys. -/
theorem tally_nodup_keys (l : List String) :
    ((l.foldl bumpCount []).map (·.1)).Nodup := by
  refine foldl_preserves bumpCount
    (fun d : List (String × Nat) => (d.map (·.1)).Nodup) ?_ l [] (by simp)
  intro acc x h
  exact nodup_keys_bumpCount h

/-- `value_counts` lists every value at most once. -/
theorem valueCounts_nodup_keys (vs : List (Option String)) :
    ((valueCounts vs).map (·.1)).Nodup := by
  have hperm := (valueCounts_perm vs).map (·.1)
  rw [hperm.nodup_iff]
  exact tally_nodup_keys (vs.filterMap id)

/-- Bumping keeps all tallies positive. -/
theorem bumpCount_pos {acc : List (String × Nat)} {v : String}
    (h : ∀ p ∈ acc, 1 ≤ p.2) : ∀ p ∈ bumpCount acc v, 1 ≤ p.2 := by
  unfold bumpCount
  by_cases hany : acc.any (fun p => p.1 == v) = true
  · rw [if_pos hany]
    intro p hp
    obtain ⟨q, hq, hqe⟩ := List.mem_map.mp hp
    by_cases hqv : (q.1 == v) = true
    · rw [if_pos hqv] at hqe
      rw [← hqe]
      exact Nat.le_succ_of_le (h q hq)
    · rw [if_neg hqv] at hqe
      rw [← hqe]
      exact h q hq
  · rw [if_neg hany]
    intro p hp
    rcases List.mem_append.mp hp with hp' | hp'
    · exact h p hp'
    · rw [List.mem_singleton.mp hp']
  
/-- Every `value_counts` entry is at least 1. -/
theorem valueCounts_pos (vs : List (Option String)) :
    ∀ p ∈ valueCounts vs, 1 ≤ p.2 := by
  intro p hp
  have hp' : p ∈ (vs.filterMap id).foldl bumpCount [] := (valueCounts_perm vs).mem_iff.mp hp
  exact foldl_preserves bumpCount
    (fun d : List (String × Nat) => ∀ q ∈ d, 1 ≤ q.2)
    (fun acc x h => bumpCount_pos h) (vs.filterMap id) [] (by simp) p hp'

/-- Looking up a stored pair in a duplicate-free tally returns its value. -/
theorem mem_countGet :
    ∀ {d : List (String × Nat)} {w : String} {c : Nat},
      (d.map (·.1)).Nodup → (w, c) ∈ d → countGet d w = c := by
  intro d
  induction d with
  | nil => intro w c _ h; cases h
  | cons a t ih =>
    obtain ⟨k, x⟩ := a
    intro w c hnod hmem
    rcases List.mem_cons.mp hmem with heq | hmem'
    · obtain ⟨h1, h2⟩ := Prod.mk.injEq .. ▸ heq
      rw [countGet_cons_of_pos h1.symm, h2]
    · have hk : k ≠ w := by
        intro hkw
        have hwmem : w ∈ t.map (·.1) := List.mem_map.mpr ⟨(w, c), hmem', rfl⟩
        rw [List.map_cons, List.nodup_cons] at hnod
        exact hnod.1 (hkw ▸ hwmem)
      rw [countGet_cons_of_neg hk]
      exact ih (by rw [List.map_cons, List.nodup_cons] at hnod; exact hnod.2) hmem'

/-- A present key is stored with its looked-up value. -/
theorem countGet_mem :
    ∀ (d : List (String × Nat)) (w : String), w ∈ d.map (·.1) → (w, countGet d w) ∈ d := by
  intro d
  induction d with
  | nil => intro w h; cases h
  | cons a t ih =>
    obtain ⟨k, x⟩ := a
    intro w hw
    by_cases hk : k = w
    · rw [countGet_cons_of_pos hk]
      subst hk
      exact List.mem_cons_self _ _
    · rw [countGet_cons_of_neg hk]
      have hw' : w ∈ t.map (·.1) := by
        rw [List.map_cons] at hw
        rcases List.mem_cons.mp hw with h | h
        · exact absurd h.symm hk
        · exact h
      exact List.mem_cons.mpr (Or.inr (ih w hw'))

/-- Each `value_counts` entry records exactly the number of occurrences. -/
theorem valueCounts_count {vs : List (Option String)} {v : String} {c : Nat}
    (h : (v, c) ∈ valueCounts vs) : c = (vs.filterMap id).count v := by
  have hmem : (v, c) ∈ (vs.filterMap id).foldl bumpCount [] := (valueCounts_perm vs).mem_iff.mp h
  have hc := mem_countGet (tally_nodup_keys (vs.filterMap id)) hmem
  rw [countGet_foldl] at hc
  simpa [countGet] using hc.symm

/-- Every occurring value gets its entry in `value_counts`. -/
theorem valueCounts_exists {vs : List (Option String)} {v : String}
    (h : v ∈ vs.filterMap id) :
    (v, (vs.filterMap id).count v) ∈ valueCounts vs := by
  have hkey : v ∈ ((vs.filterMap id).foldl bumpCount []).map (·.1) :=
    mem_keys_foldl (vs.filterMap id) [] v h
  have hmem := countGet_mem _ v hkey
  rw [countGet_foldl] at hmem
  have h0 : countGet ([] : List (String × Nat)) v = 0 := rfl
  rw [h0, Nat.zero_add] at hmem
  exact (valueCounts_perm vs).mem_iff.mpr hmem

/-- Occurrences among the non-null values are occurrences of the corresponding
`some`. -/
theorem count_filterMap_id (vs : List (Option String)) (v : String) :
    (vs.filterMap id).count v = vs.count (some v) := by
  induction vs with
  | nil => rfl
  | cons o t ih =>
    cases o with
    | none => simp [List.filterMap_cons, List.count_cons, ih]
    | some a =>
      by_cases hav : a = v
      · subst hav
        simp [List.filterMap_cons, List.count_cons, ih]
      · simp [List.filterMap_cons, List.count_cons, ih, hav]

/-!  ## C7: the legend  -/

/-- An event whose pitch type has no assigned color. -/
def evKN : PitchEvent := ⟨1, 1, 1, 0, 0, some "KN"⟩

/-- Counterexample for C7 as stated: the knuckleball type "KN" occurs in the
input, yet `_create_legend` produces no entry for it (the legend loop skips any
pitch type outside `PITCH_COLORS`), so there is not one entry per distinct
non-null pitch type. -/
theorem legend_missing_type_counterexample :
    createLegend [evKN] = [] ∧ (evKN.pitch_type = some "KN") ∧
      ("KN" ∉ PITCH_COLORS.map (·.1)) := by
  refine ⟨?_, rfl, by decide⟩
  decide

/-- C7 (amended): the legend has exactly one entry per distinct non-null pitch
type that occurs in the input AND has an assigned color; each entry's count is
the type's total occurrence count over the whole input, and its label and color
come from the fixed name/color tables. -/
theorem legend_entries_characterized (events : List PitchEvent) :
    ((legendRows events).map (·.1)).Nodup ∧
    (∀ pt c, (pt, c) ∈ legendRows events →
      pt ∈ PITCH_COLORS.map (·.1) ∧
      c = (events.map (·.pitch_type)).count (some pt) ∧ 1 ≤ c ∧
      ∃ e ∈ events, e.pitch_type = some pt) ∧
    (∀ pt, (∃ e ∈ events, e.pitch_type = some pt) → pt ∈ PITCH_COLORS.map (·.1) →
      (pt, (events.map (·.pitch_type)).count (some pt)) ∈ legendRows events) ∧
    createLegend events = (legendRows events).map (fun p =>
      ⟨lookupD PITCH_COLORS p.1 p.1,
       lookupD PITCH_NAMES p.1 p.1 ++ " (" ++ toString p.2 ++ ")"⟩) := by
  refine ⟨?_, ?_, ?_, rfl⟩
  · have hsub : List.Sublist (legendRows events) (valueCounts (events.map (·.pitch_type))) :=
      List.filter_sublist _
    exact (hsub.map (·.1)).nodup (valueCounts_nodup_keys (events.map (·.pitch_type)))
  · intro pt c hmem
    obtain ⟨hvc, hcol⟩ := List.mem_filter.mp hmem
    obtain ⟨p, hp, hpe⟩ := List.any_eq_true.mp hcol
    have hcol' : pt ∈ PITCH_COLORS.map (·.1) :=
      List.mem_map.mpr ⟨p, hp, beq_iff_eq.mp hpe⟩
    have hcount := valueCounts_count hvc
    rw [count_filterMap_id] at hcount
    have hpos : 1 ≤ c := valueCounts_pos (events.map (·.pitch_type)) (pt, c) hvc
    refine ⟨hcol', hcount, hpos, ?_⟩
    have hcnt : 0 < (events.map (·.pitch_type)).count (some pt) := by omega
    have hsm : some pt ∈ events.map (·.pitch_type) := List.count_pos_iff.mp hcnt
    obtain ⟨e, he, hee⟩ := List.mem_map.mp hsm
    exact ⟨e, he, hee⟩
  · intro pt ⟨e, he, hee⟩ hcol
    have hsm : some pt ∈ events.map (·.pitch_type) := List.mem_map.mpr ⟨e, he, hee⟩
    have hfm : pt ∈ (events.map (·.pitch_type)).filterMap id := by
      rw [List.mem_filterMap]
      exact ⟨some pt, hsm, rfl⟩
    have hvc := valueCounts_exists hfm
    rw [count_filterMap_id] at hvc
    refine List.mem_filter.mpr ⟨hvc, ?_⟩
    obtain ⟨p, hp, hpe⟩ := List.mem_map.mp hcol
    exact List.any_eq_true.mpr ⟨p, hp, beq_iff_eq.mpr hpe⟩

/-- Witness for C7 (amended): on the scenario input, "FF" (thrown 3 times across
all counts) gets the legend row `("FF", 3)`. -/
theorem legend_entries_characterized_witness :
    ("FF", (scenarioEvents.map (·.pitch_type)).count (some "FF")) ∈
      legendRows scenarioEvents :=
  (legend_entries_characterized scenarioEvents).2.2.1 "FF"
    ⟨evA1, by decide, rfl⟩ (by decide)

/-!  ## Wedge geometry  -/

/-- The wedge loop emits one wedge per distribution entry, in order. -/
theorem wedgesFrom_types (total : ℚ) :
    ∀ (dist : List (String × Nat)) (start : ℚ),
      (wedgesFrom start total dist).map (·.wtype) = dist.map (·.1) := by
  intro dist
  induction dist with
  | nil => intro start; rfl
  | cons p rest ih =>
    intro start
    simp only [wedgesFrom, List.map_cons, ih]

/-- Consecutive wedges: each wedge starts where the previous one ends. -/
theorem wedgesFrom_chain (total : ℚ) :
    ∀ (dist : List (String × Nat)) (start : ℚ),
      List.Chain' (fun u v : WedgeSpec => v.theta1 = u.theta2)
        (wedgesFrom start total dist) := by
  intro dist
  induction dist with
  | nil => intro start; exact List.chain'_nil
  | cons p rest ih =>
    intro start
    cases rest with
    | nil => exact List.chain'_singleton _
    | cons q r =>
      rw [show wedgesFrom start total (p :: q :: r) =
        ⟨p.1, start, start + 360 * ((p.2 : ℚ) / total),
          lookupD PITCH_COLORS p.1 "#cccccc"⟩ ::
          wedgesFrom (start + 360 * ((p.2 : ℚ) / total)) total (q :: r) from rfl]
      rw [show wedgesFrom (start + 360 * ((p.2 : ℚ) / total)) total (q :: r) =
        ⟨q.1, start + 360 * ((p.2 : ℚ) / total),
          start + 360 * ((p.2 : ℚ) / total) + 360 * ((q.2 : ℚ) / total),
          lookupD PITCH_COLORS q.1 "#cccccc"⟩ ::
          wedgesFrom (start + 360 * ((p.2 : ℚ) / total) + 360 * ((q.2 : ℚ) / total))
            total r from rfl]
      rw [List.chain'_cons]
      refine ⟨rfl, ?_⟩
      have := ih (start + 360 * ((p.2 : ℚ) / total))
      rw [show wedgesFrom (start + 360 * ((p.2 : ℚ) / total)) total (q :: r) =
        ⟨q.1, start + 360 * ((p.2 : ℚ) / total),
          start + 360 * ((p.2 : ℚ) / total) + 360 * ((q.2 : ℚ) / total),
          lookupD PITCH_COLORS q.1 "#cccccc"⟩ ::
          wedgesFrom (start + 360 * ((p.2 : ℚ) / total) + 360 * ((q.2 : ℚ) / total))
            total r from rfl] at this
      exact this

/-- Each wedge's angular span is `360 * count / total` for its entry. -/
theorem wedgesFrom_mem_span (total : ℚ) :
    ∀ (dist : List (String × Nat)) (start : ℚ), ∀ w ∈ wedgesFrom start total dist,
      ∃ p ∈ dist, w.wtype = p.1 ∧ w.theta2 - w.theta1 = 360 * ((p.2 : ℚ) / total) := by
  intro dist
  induction dist with
  | nil => intro start w hw; cases hw
  | cons p rest ih =>
    intro start w hw
    rcases List.mem_cons.mp hw with rfl | hw'
    · exact ⟨p, List.mem_cons_self _ _, rfl, by ring⟩
    · obtain ⟨q, hq, hqe⟩ := ih (start + 360 * ((p.2 : ℚ) / total)) w hw'
      exact ⟨q, List.mem_cons.mpr (Or.inr hq), hqe⟩

/-- The spans of the wedge list add up to `360 * (sum of counts) / total`. -/
theorem wedgesFrom_sum_spans (total : ℚ) :
    ∀ (dist : List (String × Nat)) (start : ℚ),
      ((wedgesFrom start total dist).map (fun w => w.theta2 - w.theta1)).sum =
        360 * (((dist.map (fun p => (p.2 : ℚ))).sum) / total) := by
  intro dist
  induction dist with
  | nil => intro start; simp [wedgesFrom]
  | cons p rest ih =>
    intro start
    simp only [wedgesFrom, List.map_cons, List.sum_cons, ih]
    ring

/-- The final wedge ends at the start angle plus the total span. -/
theorem wedgesFrom_getLast (total : ℚ) :
    ∀ (dist : List (String × Nat)) (start : ℚ), dist ≠ [] →
      ∃ w, (wedgesFrom start total dist).getLast? = some w ∧
        w.theta2 = start + 360 * (((dist.map (fun p => (p.2 : ℚ))).sum) / total) := by
  intro dist
  induction dist with
  | nil => intro start h; exact absurd rfl h
  | cons p rest ih =>
    intro start _
    cases rest with
    | nil =>
      refine ⟨⟨p.1, start, start + 360 * ((p.2 : ℚ) / total),
        lookupD PITCH_COLORS p.1 "#cccccc"⟩, rfl, ?_⟩
      simp
    | cons q r =>
      obtain ⟨w, hw, hwt⟩ := ih (start + 360 * ((p.2 : ℚ) / total)) (by simp)
      refine ⟨w, ?_, ?_⟩
      · rw [show wedgesFrom start total (p :: q :: r) =
          ⟨p.1, start, start + 360 * ((p.2 : ℚ) / total),
            lookupD PITCH_COLORS p.1 "#cccccc"⟩ ::
            wedgesFrom (start + 360 * ((p.2 : ℚ) / total)) total (q :: r) from rfl]
        rw [show wedgesFrom (start + 360 * ((p.2 : ℚ) / total)) total (q :: r) =
          ⟨q.1, start + 360 * ((p.2 : ℚ) / total),
            start + 360 * ((p.2 : ℚ) / total) + 360 * ((q.2 : ℚ) / total),
            lookupD PITCH_COLORS q.1 "#cccccc"⟩ ::
            wedgesFrom (start + 360 * ((p.2 : ℚ) / total) + 360 * ((q.2 : ℚ) / total))
              total r from rfl] at hw ⊢
        rw [List.getLast?_cons_cons]
        rw [← hw]
      · rw [hwt]
        simp only [List.map_cons, List.sum_cons]
        ring

/-- What `_calculate_count_data` stores for a count is either nothing or a
`value_counts` table. -/
theorem distFor_calculateCountData (events : List PitchEvent) (c : String) :
    distFor (calculateCountData events) c = [] ∨
    ∃ vs, distFor (calculateCountData events) c = valueCounts vs := by
  unfold distFor
  cases hf : (calculateCountData events).find? (fun p => p.1 == c) with
  | none => exact Or.inl rfl
  | some p =>
    right
    have hp : p ∈ calculateCountData events := List.mem_of_find?_eq_some hf
    obtain ⟨cp, _, hcpe⟩ := List.mem_map.mp hp
    refine ⟨(events.filter (fun e => countOf e == cp.1)).map (·.pitch_type), ?_⟩
    rw [← hcpe]
    rfl

/-- Entries of a stored distribution are positive tallies. -/
theorem distFor_pos (events : List PitchEvent) (c : String) :
    ∀ p ∈ distFor (calculateCountData events) c, 1 ≤ p.2 := by
  rcases distFor_calculateCountData events c with h | ⟨vs, h⟩
  · rw [h]
    intro p hp
    cases hp
  · rw [h]
    exact valueCounts_pos vs

/-- A stored distribution is sorted by descending frequency. -/
theorem distFor_sorted (events : List PitchEvent) (c : String) :
    (distFor (calculateCountData events) c).Pairwise descByCount := by
  rcases distFor_calculateCountData events c with h | ⟨vs, h⟩
  · rw [h]
    exact List.Pairwise.nil
  · rw [h]
    exact valueCounts_sorted vs

/-- A non-empty stored distribution has a positive pitch total. -/
theorem distFor_total_pos (events : List PitchEvent) (c : String)
    (hne : distFor (calculateCountData events) c ≠ []) :
    1 ≤ ((distFor (calculateCountData events) c).map (·.2)).sum := by
  cases hd : distFor (calculateCountData events) c with
  | nil => exact absurd hd hne
  | cons p rest =>
    have hp : 1 ≤ p.2 := distFor_pos events c p (by rw [hd]; exact List.mem_cons_self _ _)
    rw [List.map_cons, List.sum_cons]
    omega

/-!  ## C10: the pie covers the full circle  -/

/-- C10: for a count with a non-empty distribution, the wedge spans (each
`360 * count / total` over exact rational arithmetic) sum to exactly 360, the
final wedge ends at `90 + 360` (where the first began, one full turn later), and
consecutive wedges share their boundary (no gap, no overlap). -/
theorem wedge_spans_sum (events : List PitchEvent) (c : String)
    (hne : distFor (calculateCountData events) c ≠ []) :
    ((drawWedges (distFor (calculateCountData events) c)).map
        (fun w => w.theta2 - w.theta1)).sum = 360 ∧
    (∃ w, (drawWedges (distFor (calculateCountData events) c)).getLast? = some w ∧
      w.theta2 = 90 + 360) ∧
    List.Chain' (fun u v : WedgeSpec => v.theta1 = u.theta2)
      (drawWedges (distFor (calculateCountData events) c)) := by
  have hT : 1 ≤ ((distFor (calculateCountData events) c).map (·.2)).sum :=
    distFor_total_pos events c hne
  have hTQ : ((((distFor (calculateCountData events) c).map (·.2)).sum : Nat) : ℚ) ≠ 0 :=
    Nat.cast_ne_zero.mpr (by omega)
  have hsumQ : ((distFor (calculateCountData events) c).map (fun p => (p.2 : ℚ))).sum =
      ((((distFor (calculateCountData events) c).map (·.2)).sum : Nat) : ℚ) := by
    rw [Nat.cast_list_sum, List.map_map]
    rfl
  unfold drawWedges
  refine ⟨?_, ?_, wedgesFrom_chain _ _ 90⟩
  · rw [wedgesFrom_sum_spans, hsumQ, div_self hTQ, mul_one]
  · obtain ⟨w, hw, hwt⟩ := wedgesFrom_getLast
      ((((distFor (calculateCountData events) c).map (·.2)).sum : Nat) : ℚ)
      (distFor (calculateCountData events) c) 90 hne
    exact ⟨w, hw, by rw [hwt, hsumQ, div_self hTQ, mul_one]⟩

/-- Two pitches at count 0-0: a slider, then a four-seam fastball. -/
def pieEvents : List PitchEvent :=
  [⟨1, 1, 1, 0, 0, some "SL"⟩, ⟨1, 1, 2, 0, 0, some "FF"⟩]

/-- Witness for C10: on the two-pitch 0-0 node the spans sum to 360 and the last
wedge ends at 450 = 90 + 360. -/
theorem wedge_spans_sum_witness :
    ((drawWedges (distFor (calculateCountData pieEvents) "0-0")).map
        (fun w => w.theta2 - w.theta1)).sum = 360 ∧
    (∃ w, (drawWedges (distFor (calculateCountData pieEvents) "0-0")).getLast? = some w ∧
      w.theta2 = 90 + 360) :=
  ⟨(wedge_spans_sum pieEvents "0-0" (by decide)).1,
   (wedge_spans_sum pieEvents "0-0" (by decide)).2.1⟩

/-!  ## C6: wedge placement  -/

/-- C6 (amended): for a count with a non-empty distribution the wedges are
placed consecutively starting at the fixed reference angle 90° with strictly
increasing angles — counterclockwise in the standard math convention used by the
drawing library, not clockwise — one wedge per distribution entry in the
distribution's iteration order, which is descending frequency with ties in
first-appearance order. -/
theorem node_wedges_characterized (events : List PitchEvent) (c : String)
    (hne : distFor (calculateCountData events) c ≠ []) :
    ((drawWedges (distFor (calculateCountData events) c)).head?.map (·.theta1) =
      some 90) ∧
    List.Chain' (fun u v : WedgeSpec => v.theta1 = u.theta2)
      (drawWedges (distFor (calculateCountData events) c)) ∧
    (∀ w ∈ drawWedges (distFor (calculateCountData events) c), w.theta1 < w.theta2) ∧
    ((drawWedges (distFor (calculateCountData events) c)).map (·.wtype) =
      (distFor (calculateCountData events) c).map (·.1)) ∧
    (distFor (calculateCountData events) c).Pairwise descByCount := by
  refine ⟨?_, wedgesFrom_chain _ _ 90, ?_, wedgesFrom_types _ _ 90, distFor_sorted events c⟩
  · unfold drawWedges
    cases hd : distFor (calculateCountData events) c with
    | nil => exact absurd hd hne
    | cons p rest => rfl
  · intro w hw
    obtain ⟨p, hp, _, hspan⟩ := wedgesFrom_mem_span _ _ 90 w hw
    have h1 : 1 ≤ p.2 := distFor_pos events c p hp
    have hT : 1 ≤ ((distFor (calculateCountData events) c).map (·.2)).sum :=
      distFor_total_pos events c hne
    have hp2 : (0 : ℚ) < (p.2 : ℚ) := by exact_mod_cast Nat.lt_of_lt_of_le Nat.zero_lt_one h1
    have hTQ : (0 : ℚ) <
        ((((distFor (calculateCountData events) c).map (·.2)).sum : Nat) : ℚ) := by
      exact_mod_cast Nat.lt_of_lt_of_le Nat.zero_lt_one hT
    have hpos : (0 : ℚ) < w.theta2 - w.theta1 := by
      rw [hspan]
      positivity
    linarith

/-- Witness for C6 (amended): on the two-pitch 0-0 node, the first wedge starts
at 90° and the wedge order follows the distribution. -/
theorem node_wedges_characterized_witness :
    ((drawWedges (distFor (calculateCountData pieEvents) "0-0")).head?.map (·.theta1) =
      some 90) ∧
    ((drawWedges (distFor (calculateCountData pieEvents) "0-0")).map (·.wtype) =
      (distFor (calculateCountData pieEvents) "0-0").map (·.1)) :=
  ⟨(node_wedges_characterized pieEvents "0-0" (by decide)).1,
   (node_wedges_characterized pieEvents "0-0" (by decide)).2.2.2.1⟩

/-- Counterexample for C6 as stated: with a slider and a four-seamer tied at one
pitch each at 0-0, the wedges are `SL` over `[90°, 270°]` then `FF` over
`[270°, 450°]` — angles increase from 90° (counterclockwise placement, since a
drawing-library wedge sweeps counterclockwise from `theta1` to `theta2`), and
the tie is ordered by first appearance (`SL` before `FF`), not lexically
(`FF` before `SL`). -/
theorem node_wedges_counterexample :
    drawWedges (distFor (calculateCountData pieEvents) "0-0") =
      [⟨"SL", 90, 270, "#FFC914"⟩, ⟨"FF", 270, 450, "#FF4B4B"⟩] ∧
    ((drawWedges (distFor (calculateCountData pieEvents) "0-0")).map (·.wtype) =
      ["SL", "FF"]) ∧ (["SL", "FF"] ≠ ["FF", "SL"]) ∧ ¬ ((270 : ℚ) ≤ 90) := by
  have hdist : distFor (calculateCountData pieEvents) "0-0" = [("SL", 1), ("FF", 1)] := by
    decide
  have hw : drawWedges (distFor (calculateCountData pieEvents) "0-0") =
      [⟨"SL", 90, 270, "#FFC914"⟩, ⟨"FF", 270, 450, "#FF4B4B"⟩] := by
    rw [hdist]
    simp [drawWedges, wedgesFrom, lookupD, PITCH_COLORS, List.find?]
    norm_num
  refine ⟨hw, ?_, by decide, by norm_num⟩
  rw [hw]
  rfl

/-!  ## C5: edge widths  -/

/-- A max-fold bounds its seed and every element. -/
theorem foldl_max_ub : ∀ (l : List Nat) (acc : Nat),
    acc ≤ l.foldl max acc ∧ ∀ x ∈ l, x ≤ l.foldl max acc := by
  intro l
  induction l with
  | nil => intro acc; exact ⟨le_refl _, fun x h => absurd h (List.not_mem_nil x)⟩
  | cons a t ih =>
    intro acc
    rw [List.foldl_cons]
    obtain ⟨h1, h2⟩ := ih (max acc a)
    refine ⟨le_trans (le_max_left acc a) h1, ?_⟩
    intro x hx
    rcases List.mem_cons.mp hx with rfl | hx'
    · exact le_trans (le_max_right acc x) h1
    · exact h2 x hx'

/-- A max-fold returns its seed or an element. -/
theorem foldl_max_mem : ∀ (l : List Nat) (acc : Nat),
    l.foldl max acc = acc ∨ l.foldl max acc ∈ l := by
  intro l
  induction l with
  | nil => intro acc; exact Or.inl rfl
  | cons a t ih =>
    intro acc
    rw [List.foldl_cons]
    rcases ih (max acc a) with h | h
    · rcases max_choice acc a with hm | hm
      · exact Or.inl (by rw [h, hm])
      · exact Or.inr (List.mem_cons.mpr (Or.inl (by rw [h, hm])))
    · exact Or.inr (List.mem_cons.mpr (Or.inr h))

/-- Flow lookup stops at a matching head. -/
theorem dictGet_cons_of_pos {kk : String × String} {x : Nat}
    {t : List ((String × String) × Nat)} {k : String × String} (h : kk = k) :
    dictGet ((kk, x) :: t) k = x := by
  unfold dictGet
  have hf : List.find? (fun p => p.1.1 == k.1 && p.1.2 == k.2) ((kk, x) :: t) =
      some (kk, x) :=
    List.find?_cons_of_pos t (by subst h; simp)
  rw [hf]
  rfl

/-- Flow lookup skips a non-matching head. -/
theorem dictGet_cons_of_neg {kk : String × String} {x : Nat}
    {t : List ((String × String) × Nat)} {k : String × String} (h : kk ≠ k) :
    dictGet ((kk, x) :: t) k = dictGet t k := by
  unfold dictGet
  have hf : List.find? (fun p => p.1.1 == k.1 && p.1.2 == k.2) ((kk, x) :: t) =
      List.find? (fun p => p.1.1 == k.1 && p.1.2 == k.2) t := by
    refine List.find?_cons_of_neg t ?_
    simp only [Bool.and_eq_true, beq_iff_eq, not_and]
    intro h1 h2
    exact absurd (Prod.ext h1 h2) h
  rw [hf]

/-- Looking up a stored transition in a duplicate-free flow dict gives its count. -/
theorem dictGet_of_mem :
    ∀ {flow : List ((String × String) × Nat)} {k : String × String} {m : Nat},
      (flow.map (·.1)).Nodup → (k, m) ∈ flow → dictGet flow k = m := by
  intro flow
  induction flow with
  | nil => intro k m _ h; cases h
  | cons a t ih =>
    obtain ⟨kk, x⟩ := a
    intro k m hnod hmem
    rcases List.mem_cons.mp hmem with heq | hmem'
    · obtain ⟨h1, h2⟩ := Prod.mk.injEq .. ▸ heq
      rw [dictGet_cons_of_pos h1.symm, h2]
    · have hk : kk ≠ k := by
        intro hkw
        have hwmem : k ∈ t.map (·.1) := List.mem_map.mpr ⟨(k, m), hmem', rfl⟩
        rw [List.map_cons, List.nodup_cons] at hnod
        exact hnod.1 (hkw ▸ hwmem)
      rw [dictGet_cons_of_neg hk]
      exact ih (by rw [List.map_cons, List.nodup_cons] at hnod; exact hnod.2) hmem'

/-- Every legal transition's two counts have layout positions. -/
theorem legal_has_pos : ∀ t ∈ COUNT_TRANSITIONS, (hasPos t.1 && hasPos t.2) = true := by
  decide

/-- What membership in the drawn edge list means. -/
theorem mem_drawConnectingLines {flow : List ((String × String) × Nat)} {e : EdgeSpec}
    (hne : flow ≠ []) (he : e ∈ drawConnectingLines flow) :
    (e.startCount, e.endCount) ∈ COUNT_TRANSITIONS ∧
    0 < dictGet flow (e.startCount, e.endCount) ∧
    e.width = min_line_width +
      ((dictGet flow (e.startCount, e.endCount) : ℚ) / (maxFlowOf flow : ℚ)) *
        (max_line_width - min_line_width) := by
  unfold drawConnectingLines at he
  rw [if_neg hne] at he
  obtain ⟨t, ht, hf⟩ := List.mem_filterMap.mp he
  simp only [] at hf
  split at hf
  · split at hf
    next hpos =>
      obtain rfl := Option.some_inj.mp hf
      exact ⟨ht, hpos, rfl⟩
    next hpos => simp at hf
  · simp at hf

/-- C5 (amended): each drawn edge's width is the affine interpolation
`min + (flow / max_flow) * (max - min)` of its transition's flow, and the
maximum-flow edge is drawn at exactly the configured maximum width.  (Because
the interpolation is affine with a non-zero minimum, width RATIOS do not equal
flow ratios; see the counterexample.) -/
theorem edge_width_scaling (flow : List ((String × String) × Nat))
    (hne : flow ≠ [])
    (hpos : ∀ p ∈ flow, 1 ≤ p.2)
    (hkeys : ∀ p ∈ flow, p.1 ∈ COUNT_TRANSITIONS)
    (hnodup : (flow.map (·.1)).Nodup) :
    (∀ e ∈ drawConnectingLines flow,
      1 ≤ dictGet flow (e.startCount, e.endCount) ∧
      e.width = min_line_width +
        ((dictGet flow (e.startCount, e.endCount) : ℚ) / (maxFlowOf flow : ℚ)) *
          (max_line_width - min_line_width)) ∧
    (∃ e ∈ drawConnectingLines flow, e.width = max_line_width) := by
  constructor
  · intro e he
    obtain ⟨_, h2, h3⟩ := mem_drawConnectingLines hne he
    exact ⟨h2, h3⟩
  · have hub := foldl_max_ub (flow.map (·.2)) 0
    have hd : (flow.map (·.2)).foldl max 0 = maxFlowOf flow := rfl
    have hmax1 : 1 ≤ maxFlowOf flow := by
      obtain ⟨p0, hp0⟩ := List.exists_mem_of_ne_nil flow hne
      have hp0m : p0.2 ∈ flow.map (·.2) := List.mem_map.mpr ⟨p0, hp0, rfl⟩
      have h1 : p0.2 ≤ (flow.map (·.2)).foldl max 0 := hub.2 p0.2 hp0m
      rw [hd] at h1
      have h2 : 1 ≤ p0.2 := hpos p0 hp0
      omega
    have hmem : maxFlowOf flow ∈ flow.map (·.2) := by
      rcases foldl_max_mem (flow.map (·.2)) 0 with h | h
      · rw [hd] at h
        exact absurd h (by omega)
      · rw [hd] at h
        exact h
    obtain ⟨q, hq, hqe⟩ := List.mem_map.mp hmem
    have hqK : q.1 ∈ COUNT_TRANSITIONS := hkeys q hq
    have hget : dictGet flow q.1 = q.2 := dictGet_of_mem hnodup hq
    have hQ : ((maxFlowOf flow : Nat) : ℚ) ≠ 0 := Nat.cast_ne_zero.mpr (by omega)
    refine ⟨⟨q.1.1, q.1.2, posD q.1.1, posD q.1.2,
      min_line_width + ((dictGet flow q.1 : ℚ) / (maxFlowOf flow : ℚ)) *
        (max_line_width - min_line_width)⟩, ?_, ?_⟩
    · unfold drawConnectingLines
      rw [if_neg hne]
      refine List.mem_filterMap.mpr ⟨q.1, hqK, ?_⟩
      have hpos' : dictGet flow q.1 > 0 := by
        rw [hget]
        have := hpos q hq
        omega
      rw [if_pos (legal_has_pos q.1 hqK), if_pos hpos']
    · show min_line_width + ((dictGet flow q.1 : ℚ) / (maxFlowOf flow : ℚ)) *
        (max_line_width - min_line_width) = max_line_width
      rw [hget, hqe, div_self hQ, one_mul]
      ring

/-- Witness for C5 (amended): the 80/20 table draws its maximum-flow edge at the
configured maximum width. -/
theorem edge_width_scaling_witness :
    ∃ e ∈ drawConnectingLines flowExample, e.width = max_line_width :=
  (edge_width_scaling flowExample (by decide) (by decide) (by decide) (by decide)).2

/-- Counterexample for C5 as stated: on `{(0-0, 1-0): 80, (0-0, 0-1): 20}` the
two widths are `18` and `5.625 = 45/8` (affine interpolation with minimum
width 1.5 and maximum 18), whose ratio is `16/5 = 3.2`, not `80/20 = 4`. -/
theorem edge_width_counterexample :
    (drawConnectingLines flowExample).map (·.width) = [18, 45/8] ∧
    (18 : ℚ) / (45/8) = 16/5 ∧ ¬ ((16 : ℚ)/5 = 4) := by
  refine ⟨?_, by norm_num, by norm_num⟩
  unfold drawConnectingLines
  rw [if_neg (by decide)]
  simp only [COUNT_TRANSITIONS, List.filterMap_cons, List.filterMap_nil]
  simp [hasPos, posD, dictGet, maxFlowOf, flowExample, COUNT_POSITIONS, List.find?]
  norm_num [min_line_width, max_line_width]

/-!  ## C8: empty-input safety  -/

/-- C8: on the empty event sequence nothing fails: `_calculate_count_data` yields
all 12 counts, each with an empty distribution; `_calculate_flow_counts` yields
an empty table; `generate_chart` still produces a figure with no edges, all 12
nodes drawn as neutral discs, and an empty legend. -/
theorem empty_input_safe (pitcher_name : String) :
    calculateCountData [] = COUNT_POSITIONS.map (fun cp => (cp.1, [])) ∧
    (calculateCountData []).length = 12 ∧
    calculateFlowCounts [] = [] ∧
    (generateChart [] pitcher_name).edges = [] ∧
    (generateChart [] pitcher_name).nodes =
      COUNT_POSITIONS.map (fun cp => NodeSpec.emptyDisc cp.2 cp.1) ∧
    (generateChart [] pitcher_name).legend = [] := by
  refine ⟨rfl, rfl, rfl, rfl, ?_, rfl⟩
  rfl

/-!  ## C9: a missing identifying key is silently ignored, not an error  -/

/-- C9 (amended): the aggregator never fails fast on a record whose `game_date`
or `at_bat_number` is null; pandas `groupby` silently drops the row, so the flow
table is the one computed from the input with that row removed. -/
theorem missing_key_silently_dropped (l₁ l₂ : List RawPitchEvent) (r : RawPitchEvent)
    (h : r.game_date = none ∨ r.at_bat_number = none) :
    calculateFlowCountsRaw (l₁ ++ r :: l₂) = calculateFlowCountsRaw (l₁ ++ l₂) := by
  have hr : rawToEvent r = none := by
    obtain ⟨gd, ab, pn, b, st, pt⟩ := r
    rcases h with h | h
    · simp only at h
      subst h
      rfl
    · simp only at h
      subst h
      cases gd <;> rfl
  unfold calculateFlowCountsRaw
  rw [List.filterMap_append, List.filterMap_append, List.filterMap_cons, hr]

/-- Witness for C9 (amended): dropping the null-keyed row from the concrete raw
input leaves the flow table unchanged. -/
theorem missing_key_silently_dropped_witness :
    calculateFlowCountsRaw [rawNull, rawA1, rawA2] = calculateFlowCountsRaw [rawA1, rawA2] :=
  missing_key_silently_dropped [] [rawA1, rawA2] rawNull (Or.inl rfl)

/-- Counterexample for C9 as stated: on an input whose first record is missing its
`game_date`, the aggregator raises nothing and returns an ordinary flow table —
the same table as for the input without that record — instead of failing fast. -/
theorem missing_key_no_error :
    calculateFlowCountsRaw [rawNull, rawA1, rawA2] = [(("0-0", "1-0"), 1)] ∧
    calculateFlowCountsRaw [rawA1, rawA2] = [(("0-0", "1-0"), 1)] := by
  constructor
  · decide
  · decide

end Plinko
